import Mathlib

/-!
Shallow embedding of `src/vt_econ_dashboard.py` (Vermont town & city economic
explorer) for checking the specification's claims.

The Python program fetches town boundaries (GeoJSON), ACS statistics
(array-of-arrays JSON), optional policy links (CSV with a built-in fallback),
derives join keys (lowercased/stripped names, a regex that removes a
geographic suffix, and a concatenated GEOID), and left-joins everything with
pandas `merge(..., how="left")`.  Pure fragments are translated to Lean
functions; HTTP responses are passed in as explicit values and Python
exceptions become `Except.error`.
-/

set_option maxRecDepth 4000

/-! ## Characters and Python string helpers -/

/-- Whitespace test matching Python's regex `\s` and `str.strip` on the ASCII
range (the program's inputs are ASCII place names). -/
def isWS (c : Char) : Bool :=
  c = ' ' || c = '\t' || c = '\n' || c = '\r' || c = '\x0b' || c = '\x0c'

/-- Uppercase/lowercase ASCII letter pairs, used to model Python's
`str.lower()` on the program's ASCII inputs. -/
def upperLowerTable : List (Char × Char) :=
  [('A', 'a'), ('B', 'b'), ('C', 'c'), ('D', 'd'), ('E', 'e'), ('F', 'f'),
   ('G', 'g'), ('H', 'h'), ('I', 'i'), ('J', 'j'), ('K', 'k'), ('L', 'l'),
   ('M', 'm'), ('N', 'n'), ('O', 'o'), ('P', 'p'), ('Q', 'q'), ('R', 'r'),
   ('S', 's'), ('T', 't'), ('U', 'u'), ('V', 'v'), ('W', 'w'), ('X', 'x'),
   ('Y', 'y'), ('Z', 'z')]

/-- Model of Python `str.lower()` on one character (ASCII). -/
def lowerChar (c : Char) : Char :=
  match upperLowerTable.find? (fun p => decide (p.1 = c)) with
  | some p => p.2
  | none => c

/-- Model of Python `str.lower()` on a character list. -/
def lowerStr (l : List Char) : List Char := l.map lowerChar

/-- Model of Python `str.lower()` on a string. -/
def lowerString (s : String) : String := ⟨lowerStr s.data⟩

/-- Model of Python `str.strip()`: drop leading and trailing whitespace. -/
def stripChars (l : List Char) : List Char :=
  ((l.dropWhile isWS).reverse.dropWhile isWS).reverse

/-- The boundary-side join key of `fetch_vcgi_town_boundaries`
(src lines 98-105) and of `load_policy_links` (src line 215):
`.astype(str).str.strip().str.lower()`. -/
def townClean (s : String) : String := ⟨lowerStr (stripChars s.data)⟩

/-! ## The ACS name key: the regex of `acs_temp` (src lines 266-269)

`acs_temp["NAME"].str.extract(r"^(.*?)(?:\s+(?:town|city|gore|grant|plantation))?,\s+")`
followed by `.fillna(acs_temp["NAME"]).str.lower()`.

The lazy group `(.*?)` consumes the shortest prefix (of non-newline
characters, since `.` does not match a newline) after which either
`\s+(town|city|gore|grant|plantation),\s+` or `,\s+` matches; the key is the
captured prefix there, or the whole name when no position matches. The
administrative words start with non-whitespace letters, so the greedy `\s+`
backtracking collapses to "drop the maximal whitespace run", and no
administrative word is a prefix of another, so alternation order is
irrelevant to success. -/

/-- The administrative-type words of the regex alternation. -/
def adminWordStrings : List String := ["town", "city", "gore", "grant", "plantation"]

/-- The same alternation as character lists, in the pattern's order. -/
def adminWords : List (List Char) :=
  [['t', 'o', 'w', 'n'], ['c', 'i', 't', 'y'], ['g', 'o', 'r', 'e'],
   ['g', 'r', 'a', 'n', 't'], ['p', 'l', 'a', 'n', 't', 'a', 't', 'i', 'o', 'n']]

/-- Removes `w` from the front of `l` if it is literally there. -/
def stripPre : List Char → List Char → Option (List Char)
  | [], l => some l
  | _ :: _, [] => none
  | a :: w, b :: l => if a = b then stripPre w l else none

/-- First administrative word of the alternation that matches a prefix of
`l`, returning the remaining text. -/
def matchAdminAux : List (List Char) → List Char → Option (List Char)
  | [], _ => none
  | w :: ws, l =>
    match stripPre w l with
    | some r => some r
    | none => matchAdminAux ws l

/-- Matches `(?:town|city|gore|grant|plantation)` at the front of `l`. -/
def matchAdmin (l : List Char) : Option (List Char) := matchAdminAux adminWords l

/-- Matches `,\s+` at the front of `l` (only the first whitespace matters for
match success, the pattern ends right after `\s+`). -/
def commaWS : List Char → Bool
  | a :: b :: _ => decide (a = ',') && isWS b
  | _ => false

/-- Matches `(?:town|city|gore|grant|plantation),\s+` at the front of `l`. -/
def wordComma (l : List Char) : Bool :=
  match matchAdmin l with
  | some rest => commaWS rest
  | none => false

/-- Matches `\s+(?:town|city|gore|grant|plantation),\s+` at the front of `l`. -/
def suffixTerm : List Char → Bool
  | [] => false
  | c :: rest => isWS c && wordComma (rest.dropWhile isWS)

/-- Whether the regex can finish at this position: the optional suffix branch
first, else a bare `,\s+`. -/
def termAt (l : List Char) : Bool := suffixTerm l || commaWS l

/-- The lazy scan of `(.*?)`: the group captured by the regex, or `none` when
the pattern does not match (the group cannot extend over a newline). -/
def extractKey : List Char → Option (List Char)
  | [] => none
  | c :: rest =>
    if termAt (c :: rest) then some []
    else if c = '\n' then none
    else (extractKey rest).map (fun g => c :: g)

/-- The ACS-side join key of src lines 266-269: regex extraction, with the
full name substituted when the regex does not match, then lowercased. -/
def normalizeACSName (s : String) : String :=
  match extractKey s.data with
  | some g => ⟨lowerStr g⟩
  | none => ⟨lowerStr s.data⟩

/-! ## pandas left merge

`L.merge(R, on=key, how="left")` keeps every left row in order; a left row
with `n ≥ 1` key matches is repeated once per matching right row (in right
order), and a left row with no match appears once with nulls (`none`) for the
right side's columns. -/

/-- The output rows a single left row `a` produces in a left merge. -/
def mergeRow {α β K : Type} [DecidableEq K] (kl : α → K) (kr : β → K)
    (R : List β) (a : α) : List (α × Option β) :=
  match R.filter (fun b => decide (kr b = kl a)) with
  | [] => [(a, none)]
  | bs => bs.map (fun b => (a, some b))

/-- pandas `L.merge(R, left_key, right_key, how="left")`. -/
def leftMerge {α β K : Type} [DecidableEq K] (kl : α → K) (kr : β → K)
    (L : List α) (R : List β) : List (α × Option β) :=
  (L.map (mergeRow kl kr R)).flatten

/-! ## Statistics adapter (`_census_get`, `fetch_acs_profile`, `fetch_acs_detailed`) -/

/-- One cell of the decoded ACS JSON array-of-arrays: the service's null
sentinel (JSON `null`, Python `None`) or a string. -/
inductive CellValue where
  | null
  | str (s : String)
deriving DecidableEq

/-- Errors of the fetch adapters: a non-success HTTP status surfaced by
`raise_for_status()` (src lines 76 and 123), or the `IndexError` raised by
`rows[0]` on an empty decoded array (src line 125). -/
inductive FetchError where
  | httpStatus (code : Nat)
  | emptyBody
deriving DecidableEq

/-- A decoded response of the Census statistics service. -/
structure CensusResponse where
  status : Nat
  rows : List (List CellValue)
deriving DecidableEq

/-- Model of `_census_get` (src lines 117-127): `raise_for_status()` raises
for any 4xx/5xx status; otherwise the first row becomes the header and the
rest the data (`rows[0]` raising on an empty array). -/
def _census_get (r : CensusResponse) :
    Except FetchError (List CellValue × List (List CellValue)) :=
  if 400 ≤ r.status ∧ r.status < 600 then Except.error (FetchError.httpStatus r.status)
  else
    match r.rows with
    | [] => Except.error FetchError.emptyBody
    | cols :: data => Except.ok (cols, data)

/-- Digit run to a natural number, most significant first. -/
def digitsToNat (l : List Char) : Nat :=
  l.foldl (fun n c => 10 * n + (c.toNat - 48)) 0

/-- Unsigned decimal number: digits with an optional fractional part; at
least one digit overall. -/
def parseUnsigned (l : List Char) : Option Rat :=
  match l.dropWhile Char.isDigit with
  | [] => if l.isEmpty then none else some (digitsToNat l : Rat)
  | '.' :: frac =>
    if frac.all Char.isDigit && (!(l.takeWhile Char.isDigit).isEmpty || !frac.isEmpty) then
      some ((digitsToNat (l.takeWhile Char.isDigit) : Rat) +
        (digitsToNat frac : Rat) / ((10 : Rat) ^ frac.length))
    else none
  | _ => none

/-- Decimal parser behind `pd.to_numeric(..., errors="coerce")` on a string
cell: optional sign then an unsigned decimal; anything else is not numeric. -/
def parseNumeric (s : String) : Option Rat :=
  match s.data with
  | '-' :: rest => (parseUnsigned rest).map (fun q => -q)
  | '+' :: rest => parseUnsigned rest
  | l => parseUnsigned l

/-- Model of `pd.to_numeric(df[v], errors="coerce")` on one cell (src lines
148-149 and 165-166): the null sentinel and non-numeric strings coerce to
null (`none`), numeric strings to their value. -/
def castNumericCell (v : CellValue) : Option Rat :=
  match v with
  | CellValue.null => none
  | CellValue.str s => parseNumeric s

/-- Column-wise numeric coercion of an indicator column. -/
def coerceColumn (col : List CellValue) : List (Option Rat) :=
  col.map castNumericCell

/-- Vermont's state FIPS code (src line 31). -/
def STATE_FIPS : String := "50"

/-- Model of the composite-code construction (src lines 146 and 164):
`df["GEOID"] = STATE_FIPS + df.get("county", "").fillna("") + df["county subdivision"]`,
a missing county cell contributing the empty string. -/
def makeGEOID (county : Option String) (countySubdivision : String) : String :=
  STATE_FIPS ++ county.getD "" ++ countySubdivision

/-- A row of the `fetch_acs_profile` table after GEOID construction and
numeric coercion (profile indicator columns of src lines 57-64). -/
structure ProfRow where
  GEOID : String
  NAME : String
  DP03_0009PE : Option Rat
  DP02_0068PE : Option Rat
  DP03_0119PE : Option Rat
deriving DecidableEq

/-- A row of `detl[["GEOID"] + list(ACS_VARS_DETAILED.keys())]`: the detailed
sub-fetch subselected to the merge key and its indicator (src line 257). -/
structure DetlRow where
  GEOID : String
  B19013_001E : Option Rat
deriving DecidableEq

/-- Model of `acs = prof.merge(detl[["GEOID", ...]], on="GEOID", how="left")`
(src line 257). -/
def acsMerge (prof : List ProfRow) (detl : List DetlRow) : List (ProfRow × Option DetlRow) :=
  leftMerge (fun p => p.GEOID) (fun d => d.GEOID) prof detl

/-- The merged median-income indicator of a merged statistics record: null
when the detailed sub-fetch contributed no row. -/
def mergedIncome (row : ProfRow × Option DetlRow) : Option Rat :=
  match row.2 with
  | some d => d.B19013_001E
  | none => none

/-! ## Boundary adapter (`fetch_vcgi_town_boundaries`, src lines 69-114) -/

/-- A GeoJSON feature: attribute table plus an optional geometry (the
geometry payload is kept opaque as its serialized form). -/
structure GeoFeature where
  properties : List (String × String)
  geometry : Option String
deriving DecidableEq

/-- A decoded response of the VCGI boundary service. -/
structure GeoResponse where
  status : Nat
  features : List GeoFeature
deriving DecidableEq

/-- Model of src lines 74-88: `raise_for_status()` raises on a 4xx/5xx
status; otherwise each feature with a geometry yields one record and
features without geometry are skipped.  (The later attribute normalization
of src lines 95-113 is modelled by `townClean` on the chosen name.) -/
def fetch_vcgi_town_boundaries (r : GeoResponse) :
    Except FetchError (List (List (String × String) × String)) :=
  if 400 ≤ r.status ∧ r.status < 600 then Except.error (FetchError.httpStatus r.status)
  else Except.ok (r.features.filterMap (fun f => f.geometry.map (fun g => (f.properties, g))))

/-! ## Annotation adapter (`load_policy_links`, src lines 170-216) -/

/-- A policy-link row before key derivation; a column missing from the CSV is
`none` (src lines 177-179 fill missing columns with `None`). -/
structure PolicyLinkRaw where
  town : Option String
  url : Option String
  title : Option String
  tags : Option String
deriving DecidableEq

/-- A policy-link row with the derived `town_clean` join key (src line 215). -/
structure PolicyLink where
  town : Option String
  url : Option String
  title : Option String
  tags : Option String
  town_clean : String
deriving DecidableEq

/-- Python `astype(str)` on an object cell: `None` prints as `"None"`. -/
def pyStrOfCell (o : Option String) : String :=
  match o with
  | some s => s
  | none => "None"

/-- `df["town_clean"] = df["town"].astype(str).str.strip().str.lower()`
(src line 215). -/
def addTownClean (p : PolicyLinkRaw) : PolicyLink :=
  { town := p.town, url := p.url, title := p.title, tags := p.tags,
    town_clean := townClean (pyStrOfCell p.town) }

/-- The seeded fallback of src lines 181-214, returned when the CSV path does
not resolve. -/
def fallbackPolicyLinks : List PolicyLinkRaw :=
  [⟨some "Burlington",
    some "https://www.burlingtonvt.gov/157/Community-Economic-Development-Office-CE",
    some "Community & Economic Development Office (CEDO)",
    some "strategic-plan,housing,workforce"⟩,
   ⟨some "Montpelier",
    some "https://www.montpelier-vt.org/602/Economic-Development",
    some "City Economic Development (links & plan)",
    some "strategic-plan,grants,regional"⟩,
   ⟨some "Rutland",
    some "https://www.rutlandvtbusiness.com/",
    some "Rutland Redevelopment Authority (RRA)",
    some "redevelopment,tif,small-business"⟩,
   ⟨some "South Burlington",
    some "https://www.southburlingtonvt.gov/595/Economic-Development-Strategic-Plan",
    some "Economic Development Strategic Plan",
    some "strategic-plan,engagement"⟩,
   ⟨some "Essex",
    some "https://www.essexvt.gov/1469/ECONOMIC-DEVELOPMENT-STUDY",
    some "Economic Development Study",
    some "study,priorities"⟩]

/-- Model of `load_policy_links` (src lines 171-216).  `readCsv` stands for
`os.path.exists` plus `pd.read_csv` plus the missing-column fill: `none` when
the path does not resolve, otherwise the parsed rows. -/
def load_policy_links (readCsv : String → Option (List PolicyLinkRaw)) (path : String) :
    List PolicyLink :=
  match readCsv path with
  | some rows => rows.map addTownClean
  | none => fallbackPolicyLinks.map addTownClean

/-! ## The join pipeline (src lines 259-275)

`joined = gdf.merge(acs, ...)` (on GEOID, or on the name key in the fallback
branch) followed by `joined = joined.merge(pol[...], on="town_clean",
how="left")`; both are left merges from the boundary table, the second keyed
on a column of the boundary side. -/

/-- Boundaries left-joined with statistics, then with policy links; the two
merges may use different key columns (GEOID-based or name-based), both drawn
from the boundary row. -/
def joinedPipeline {G A P K₁ K₂ : Type} [DecidableEq K₁] [DecidableEq K₂]
    (k1g : G → K₁) (ka : A → K₁) (k2g : G → K₂) (kp : P → K₂)
    (gdf : List G) (acs : List A) (pol : List P) :
    List ((G × Option A) × Option P) :=
  leftMerge (fun q => k2g q.1) kp (leftMerge k1g ka gdf acs) pol

/-! ## Cache (spec-modelled)

The `@st.cache_data(ttl=60*60)` decorators (src lines 69, 130, 153, 170) are
external library code; the repository only declares them.  Modelled from the
spec: an explicit cache component owning a mapping from call key to
(result, fetch-timestamp) with a `get-or-fetch` operation and a fixed
time-to-live. -/

/-- Cached fetch results: key, value, fetch timestamp (seconds). -/
structure CacheState (K V : Type) where
  entries : List (K × V × Nat)

/-- The cache time-to-live of src line 69: `ttl=60*60`. -/
def cacheTTLSeconds : Nat := 60 * 60

/-- Modelled from the spec: a cached entry is served while younger than the
time-to-live. -/
def lookupFresh {K V : Type} [DecidableEq K] (c : CacheState K V) (k : K) (now : Nat) :
    Option V :=
  (c.entries.find? (fun e => decide (e.1 = k) && decide (now < e.2.2 + cacheTTLSeconds))).map
    (fun e => e.2.1)

/-- Modelled from the spec: get-or-fetch returns the cached value without a
network call when fresh, otherwise issues the network call (third component
`true`) and stores the result. -/
def getOrFetch {K V : Type} [DecidableEq K] (c : CacheState K V) (fetch : K → V)
    (k : K) (now : Nat) : V × CacheState K V × Bool :=
  match lookupFresh c k now with
  | some v => (v, c, false)
  | none => (fetch k, ⟨(k, fetch k, now) :: c.entries⟩, true)

/-! ## End-to-end scenario data (spec section 8) -/

/-- An ACS record as joined in the name-based fallback branch: the raw
display name plus an indicator. -/
structure AcsNameRow where
  NAME : String
  DP03_0009PE : Option Rat
deriving DecidableEq

/-- The statistics record of the end-to-end scenario: indicators exist only
for Burlington, under its full Census display name. -/
def scenarioAcsRow : AcsNameRow :=
  ⟨"Burlington city, Chittenden County, Vermont", some 3⟩

/-- The name-based join of the scenario: boundary keys are the cleaned town
names, the ACS key is the regex-derived `town_clean` (src lines 264-270). -/
def scenarioJoined : List (String × Option AcsNameRow) :=
  leftMerge (fun s => s) (fun row => normalizeACSName row.NAME)
    ["burlington", "montpelier"] [scenarioAcsRow]


/-! ## Lemmas about lowercasing -/

theorem lowerChar_cases (c : Char) :
    lowerChar c = c ∨ ∃ q ∈ upperLowerTable, q.1 = c ∧ lowerChar c = q.2 := by
  unfold lowerChar
  cases h : upperLowerTable.find? (fun p => decide (p.1 = c)) with
  | none => exact Or.inl rfl
  | some q =>
    refine Or.inr ⟨q, List.mem_of_find?_eq_some h, ?_, rfl⟩
    simpa using List.find?_some h

theorem upperLowerTable_fst_ne_snd :
    ∀ x ∈ upperLowerTable, ∀ q ∈ upperLowerTable, x.1 ≠ q.2 := by decide

theorem upperLowerTable_no_ws_no_comma :
    ∀ q ∈ upperLowerTable, isWS q.1 = false ∧ isWS q.2 = false ∧ q.2 ≠ ',' := by decide

theorem lowerChar_idem (c : Char) : lowerChar (lowerChar c) = lowerChar c := by
  rcases lowerChar_cases c with h | ⟨q, hq, _, hres⟩
  · rw [h, h]
  · rw [hres]
    have hnone : upperLowerTable.find? (fun p => decide (p.1 = q.2)) = none := by
      apply List.find?_eq_none.mpr
      intro x hx
      simpa using upperLowerTable_fst_ne_snd x hx q hq
    unfold lowerChar
    rw [hnone]

theorem lowerChar_eq_comma {c : Char} (h : lowerChar c = ',') : c = ',' := by
  rcases lowerChar_cases c with h' | ⟨q, hq, _, hres⟩
  · rw [← h', h]
  · exact absurd (hres ▸ h) (upperLowerTable_no_ws_no_comma q hq).2.2

theorem isWS_lowerChar (c : Char) : isWS (lowerChar c) = isWS c := by
  rcases lowerChar_cases c with h | ⟨q, hq, hqc, hres⟩
  · rw [h]
  · rw [hres, ← hqc, (upperLowerTable_no_ws_no_comma q hq).1,
      (upperLowerTable_no_ws_no_comma q hq).2.1]

theorem lowerStr_idem (l : List Char) : lowerStr (lowerStr l) = lowerStr l := by
  unfold lowerStr
  rw [List.map_map]
  exact List.map_congr_left (fun a _ => lowerChar_idem a)

/-! ## Lemmas about stripping -/

theorem head?_dropWhile_false (p : α → Bool) :
    ∀ (l : List α) (b : α), (l.dropWhile p).head? = some b → p b = false := by
  intro l
  induction l with
  | nil => intro b h; simp [List.dropWhile] at h
  | cons c t ih =>
    intro b h
    by_cases hc : p c
    · rw [List.dropWhile_cons, if_pos hc] at h
      exact ih b h
    · rw [List.dropWhile_cons, if_neg hc] at h
      simp at h
      rw [← h]
      exact Bool.eq_false_iff.mpr hc

theorem dropWhile_eq_self_of_head? (p : α → Bool) (l : List α)
    (h : ∀ b, l.head? = some b → p b = false) : l.dropWhile p = l := by
  cases l with
  | nil => rfl
  | cons c t =>
    rw [List.dropWhile_cons, if_neg]
    simp [h c rfl]

theorem dropWhile_append_of_ne_nil (p : α → Bool) (l₁ l₂ : List α)
    (h : l₁.dropWhile p ≠ []) : (l₁ ++ l₂).dropWhile p = l₁.dropWhile p ++ l₂ := by
  induction l₁ with
  | nil => simp [List.dropWhile] at h
  | cons c t ih =>
    by_cases hc : p c
    · rw [List.dropWhile_cons, if_pos hc] at h
      rw [List.cons_append, List.dropWhile_cons, if_pos hc, List.dropWhile_cons, if_pos hc]
      exact ih h
    · rw [List.cons_append, List.dropWhile_cons, if_neg hc, List.dropWhile_cons, if_neg hc]
      rfl

theorem dropWhile_ne_nil_of_getLast? (p : α → Bool) :
    ∀ (l : List α) (b : α), l.getLast? = some b → p b = false → l.dropWhile p ≠ [] := by
  intro l
  induction l with
  | nil => intro b h; simp at h
  | cons c t ih =>
    intro b h hpb
    cases t with
    | nil =>
      simp at h
      rw [List.dropWhile_cons, if_neg (by rw [h, hpb]; exact Bool.false_ne_true)]
      simp
    | cons x xs =>
      rw [List.getLast?_cons_cons] at h
      rw [List.dropWhile_cons]
      split
      · exact ih b h hpb
      · simp

theorem mem_of_mem_dropWhile (p : α → Bool) (l : List α) (a : α)
    (h : a ∈ l.dropWhile p) : a ∈ l := by
  have hd := List.takeWhile_append_dropWhile p l
  rw [← hd]
  exact List.mem_append_right _ h

theorem stripChars_head? (l : List Char) :
    ∀ b, (stripChars l).head? = some b → isWS b = false := by
  intro b h
  unfold stripChars at h
  rw [List.head?_reverse] at h
  have hne : (l.dropWhile isWS).reverse.dropWhile isWS ≠ [] := by
    intro he
    rw [he] at h
    simp at h
  have hdec := List.takeWhile_append_dropWhile isWS (l.dropWhile isWS).reverse
  have := List.getLast?_append_of_ne_nil ((l.dropWhile isWS).reverse.takeWhile isWS) hne
  rw [hdec] at this
  rw [← this] at h
  have h2 : (l.dropWhile isWS).head? = some b := by
    have hr := List.head?_reverse (l.dropWhile isWS).reverse
    rw [List.reverse_reverse] at hr
    rw [← hr] at h
    exact h
  exact head?_dropWhile_false isWS l b h2

theorem stripChars_getLast? (l : List Char) :
    ∀ b, (stripChars l).getLast? = some b → isWS b = false := by
  intro b h
  unfold stripChars at h
  have hr := List.head?_reverse ((l.dropWhile isWS).reverse.dropWhile isWS).reverse
  rw [List.reverse_reverse] at hr
  rw [← hr] at h
  exact head?_dropWhile_false isWS (l.dropWhile isWS).reverse b h

theorem stripChars_eq_self (l : List Char)
    (hh : ∀ b, l.head? = some b → isWS b = false)
    (hl : ∀ b, l.getLast? = some b → isWS b = false) : stripChars l = l := by
  unfold stripChars
  rw [dropWhile_eq_self_of_head? isWS l hh]
  rw [dropWhile_eq_self_of_head? isWS l.reverse (by
    intro b hb
    rw [List.head?_reverse] at hb
    exact hl b hb)]
  exact List.reverse_reverse l

theorem stripChars_idem (l : List Char) : stripChars (stripChars l) = stripChars l :=
  stripChars_eq_self _ (stripChars_head? l) (stripChars_getLast? l)

theorem dropWhile_isWS_lowerStr (l : List Char) :
    (lowerStr l).dropWhile isWS = lowerStr (l.dropWhile isWS) := by
  induction l with
  | nil => rfl
  | cons c t ih =>
    show ((lowerChar c :: lowerStr t).dropWhile isWS) = _
    rw [List.dropWhile_cons, List.dropWhile_cons, isWS_lowerChar]
    by_cases hc : isWS c
    · rw [if_pos hc, if_pos hc]
      exact ih
    · rw [if_neg hc, if_neg hc]
      rfl

theorem reverse_lowerStr (l : List Char) : (lowerStr l).reverse = lowerStr l.reverse := by
  unfold lowerStr
  exact (List.map_reverse lowerChar l).symm

theorem stripChars_lowerStr (l : List Char) :
    stripChars (lowerStr l) = lowerStr (stripChars l) := by
  unfold stripChars
  rw [dropWhile_isWS_lowerStr, reverse_lowerStr, dropWhile_isWS_lowerStr, reverse_lowerStr]

theorem townClean_idem (s : String) : townClean (townClean s) = townClean s := by
  show (⟨lowerStr (stripChars (lowerStr (stripChars s.data)))⟩ : String) = _
  rw [stripChars_lowerStr, stripChars_idem, lowerStr_idem]
  rfl

/-! ## Lemmas about the regex terminator -/

theorem adminWords_facts :
    ∀ u ∈ adminWords, u ≠ [] ∧ ∀ c ∈ u, isWS c = false ∧ c ≠ ',' := by decide

theorem stripPre_decomp : ∀ (u v r : List Char), stripPre u v = some r → v = u ++ r := by
  intro u
  induction u with
  | nil =>
    intro v r h
    simp [stripPre] at h
    simp [h]
  | cons a w ih =>
    intro v r h
    cases v with
    | nil => simp [stripPre] at h
    | cons b l =>
      unfold stripPre at h
      by_cases hab : a = b
      · rw [if_pos hab] at h
        rw [List.cons_append, ← hab, ih l r h]
      · rw [if_neg hab] at h
        exact absurd h (by simp)

theorem matchAdminAux_decomp : ∀ (ws : List (List Char)) (m r : List Char),
    matchAdminAux ws m = some r → ∃ u ∈ ws, m = u ++ r := by
  intro ws
  induction ws with
  | nil => intro m r h; simp [matchAdminAux] at h
  | cons w ws ih =>
    intro m r h
    unfold matchAdminAux at h
    cases hs : stripPre w m with
    | some r' =>
      rw [hs] at h
      simp at h
      refine ⟨w, List.mem_cons_self w ws, ?_⟩
      rw [← h]
      exact stripPre_decomp w m r' hs
    | none =>
      rw [hs] at h
      obtain ⟨u, hu, hm⟩ := ih m r h
      exact ⟨u, List.mem_cons_of_mem w hu, hm⟩

theorem commaWS_cons_false {a : Char} (l : List Char) (h : a ≠ ',') :
    commaWS (a :: l) = false := by
  cases l with
  | nil => rfl
  | cons b t => simp [commaWS, h]

theorem commaWS_elim (l : List Char) (h : commaWS l = true) :
    ∃ b rest, l = ',' :: b :: rest ∧ isWS b = true := by
  cases l with
  | nil => simp [commaWS] at h
  | cons a t =>
    cases t with
    | nil => simp [commaWS] at h
    | cons b rest =>
      unfold commaWS at h
      simp only [Bool.and_eq_true, decide_eq_true_eq] at h
      exact ⟨b, rest, by rw [h.1], h.2⟩

theorem commaWS_append (l t : List Char) (h : commaWS l = true) :
    commaWS (l ++ t) = true := by
  obtain ⟨b, rest, he, hw⟩ := commaWS_elim l h
  rw [he]
  show commaWS (',' :: b :: (rest ++ t)) = true
  simp [commaWS, hw]

theorem termAt_of_commaWS (l : List Char) (h : commaWS l = true) : termAt l = true := by
  unfold termAt
  rw [h, Bool.or_true]

theorem commaWS_of_lowerStr (l : List Char) (h : commaWS (lowerStr l) = true) :
    commaWS l = true := by
  obtain ⟨b, rest, he, hw⟩ := commaWS_elim _ h
  cases l with
  | nil => simp [lowerStr] at he
  | cons a t =>
    cases t with
    | nil => simp [lowerStr] at he
    | cons b' t' =>
      have he' : lowerChar a :: lowerChar b' :: lowerStr t' = ',' :: b :: rest := he
      simp at he'
      have ha : a = ',' := lowerChar_eq_comma he'.1
      have hb : isWS b' = true := by
        rw [← isWS_lowerChar b', he'.2.1]
        exact hw
      simp [commaWS, ha, hb]

theorem wordComma_append_false (m t : List Char) (hm : ∀ a ∈ m, a ≠ ',')
    (ht : ∀ b, t.head? = some b → isWS b = true) :
    wordComma (m ++ t) = false := by
  have hrestT : commaWS t = false := by
    cases t with
    | nil => rfl
    | cons b t2 =>
      have hb := ht b rfl
      apply commaWS_cons_false
      intro hbc
      rw [hbc] at hb
      exact absurd hb (by decide)
  unfold wordComma
  cases hmt : matchAdmin (m ++ t) with
  | none => rfl
  | some rest =>
    show commaWS rest = false
    obtain ⟨u, hu, hdecomp⟩ := matchAdminAux_decomp adminWords _ rest hmt
    rcases List.append_eq_append_iff.mp hdecomp.symm with ⟨k, hk1, hk2⟩ | ⟨k, hk1, hk2⟩
    · cases k with
      | nil =>
        rw [List.nil_append] at hk2
        rw [hk2]
        exact hrestT
      | cons y k2 =>
        rw [hk2, List.cons_append]
        apply commaWS_cons_false
        apply hm y
        rw [hk1]
        exact List.mem_append_right u (List.mem_cons_self y k2)
    · cases k with
      | nil =>
        rw [List.nil_append] at hk2
        rw [← hk2]
        exact hrestT
      | cons x k2 =>
        exfalso
        have hxu : x ∈ u := by
          rw [hk1]
          exact List.mem_append_right m (List.mem_cons_self x k2)
        have hxw : isWS x = false := ((adminWords_facts u hu).2 x hxu).1
        have hxt : isWS x = true := ht x (by rw [hk2]; rfl)
        rw [hxw] at hxt
        exact absurd hxt (by decide)

theorem termAt_append_false (l tail : List Char)
    (hcomma : ∀ a ∈ l, a ≠ ',')
    (hlast : ∀ b, l.getLast? = some b → isWS b = false)
    (hne : l ≠ [])
    (hth : ∀ b, tail.head? = some b → isWS b = true) :
    termAt (l ++ tail) = false := by
  cases l with
  | nil => exact absurd rfl hne
  | cons c l' =>
    unfold termAt
    have hcws : commaWS ((c :: l') ++ tail) = false := by
      rw [List.cons_append]
      exact commaWS_cons_false _ (hcomma c (List.mem_cons_self c l'))
    rw [hcws, Bool.or_false]
    rw [List.cons_append]
    show (isWS c && wordComma ((l' ++ tail).dropWhile isWS)) = false
    by_cases hc : isWS c
    · have hl'ne : l' ≠ [] := by
        intro he
        subst he
        have := hlast c (by rfl)
        rw [hc] at this
        exact absurd this (by decide)
      have hl'last : ∀ b, l'.getLast? = some b → isWS b = false := by
        intro b hb
        apply hlast b
        cases l' with
        | nil => simp at hb
        | cons x xs => rw [List.getLast?_cons_cons]; exact hb
      obtain ⟨b, hb⟩ : ∃ b, l'.getLast? = some b := by
        cases hgl : l'.getLast? with
        | some b => exact ⟨b, rfl⟩
        | none =>
          exfalso
          cases l' with
          | nil => exact hl'ne rfl
          | cons x xs => simp at hgl
      have hdw : l'.dropWhile isWS ≠ [] :=
        dropWhile_ne_nil_of_getLast? isWS l' b hb (hl'last b hb)
      rw [dropWhile_append_of_ne_nil isWS l' tail hdw]
      have hwc : wordComma (l'.dropWhile isWS ++ tail) = false := by
        apply wordComma_append_false
        · intro a ha
          exact hcomma a (List.mem_cons_of_mem c (mem_of_mem_dropWhile isWS l' a ha))
        · exact hth
      rw [hwc, Bool.and_false]
    · rw [Bool.eq_false_iff.mpr hc, Bool.false_and]

theorem termAt_sep (w r : List Char) (hw : w ∈ adminWords) :
    termAt (' ' :: (w ++ ',' :: ' ' :: r)) = true := by
  unfold termAt
  have hst : suffixTerm (' ' :: (w ++ ',' :: ' ' :: r)) = true := by
    show (isWS ' ' && wordComma ((w ++ ',' :: ' ' :: r).dropWhile isWS)) = true
    have hws : isWS ' ' = true := by decide
    rw [hws, Bool.true_and]
    have hdw : (w ++ ',' :: ' ' :: r).dropWhile isWS = w ++ ',' :: ' ' :: r := by
      apply dropWhile_eq_self_of_head?
      intro b hb
      cases w with
      | nil => exact absurd rfl (adminWords_facts [] hw).1
      | cons x xs =>
        rw [List.cons_append] at hb
        simp at hb
        rw [← hb]
        exact ((adminWords_facts _ hw).2 x (List.mem_cons_self x xs)).1
    rw [hdw]
    unfold wordComma
    have hma : matchAdmin (w ++ ',' :: ' ' :: r) = some (',' :: ' ' :: r) := by
      have h5 : w = ['t', 'o', 'w', 'n'] ∨ w = ['c', 'i', 't', 'y'] ∨ w = ['g', 'o', 'r', 'e'] ∨
          w = ['g', 'r', 'a', 'n', 't'] ∨ w = ['p', 'l', 'a', 'n', 't', 'a', 't', 'i', 'o', 'n'] := by
        simpa [adminWords] using hw
      rcases h5 with rfl | rfl | rfl | rfl | rfl
      · rfl
      · rfl
      · rfl
      · rfl
      · rfl
    rw [hma]
    show commaWS (',' :: ' ' :: r) = true
    rfl
  rw [hst, Bool.true_or]

/-! ## Lemmas about the lazy scan -/

theorem extractKey_place (w r : List Char) (hw : w ∈ adminWords) :
    ∀ l : List Char, (∀ a ∈ l, a ≠ ',' ∧ a ≠ '\n') →
      (∀ b, l.getLast? = some b → isWS b = false) →
      extractKey (l ++ ' ' :: (w ++ ',' :: ' ' :: r)) = some l := by
  intro l
  induction l with
  | nil =>
    intro _ _
    rw [List.nil_append]
    show extractKey (' ' :: (w ++ ',' :: ' ' :: r)) = some []
    unfold extractKey
    rw [if_pos (termAt_sep w r hw)]
  | cons c l' ih =>
    intro hcm hlast
    rw [List.cons_append]
    unfold extractKey
    have htf : termAt (c :: (l' ++ ' ' :: (w ++ ',' :: ' ' :: r))) = false := by
      rw [← List.cons_append]
      apply termAt_append_false
      · exact fun a ha => (hcm a ha).1
      · exact hlast
      · simp
      · intro b hb
        simp at hb
        rw [← hb]
        decide
    rw [if_neg (by simp [htf])]
    rw [if_neg (fun he => (hcm c (List.mem_cons_self c l')).2 he)]
    have hl' : extractKey (l' ++ ' ' :: (w ++ ',' :: ' ' :: r)) = some l' := by
      apply ih
      · exact fun a ha => hcm a (List.mem_cons_of_mem c ha)
      · intro b hb
        apply hlast b
        cases l' with
        | nil => simp at hb
        | cons x xs => rw [List.getLast?_cons_cons]; exact hb
    rw [hl']
    rfl

theorem extractKey_none_of (l : List Char) (h : ∀ n, termAt (l.drop n) = false) :
    extractKey l = none := by
  induction l with
  | nil => rfl
  | cons c rest ih =>
    have h0 : termAt (c :: rest) = false := by
      have := h 0
      rwa [List.drop_zero] at this
    unfold extractKey
    rw [if_neg (by simp [h0])]
    by_cases hc : c = '\n'
    · rw [if_pos hc]
    · rw [if_neg hc]
      rw [ih (fun n => by have := h (n + 1); rwa [List.drop_succ_cons] at this)]
      rfl

theorem extractKey_some_spec : ∀ (l g : List Char), extractKey l = some g →
    (∃ t, l = g ++ t ∧ termAt t = true) ∧ ∀ m < g.length, termAt (l.drop m) = false := by
  intro l
  induction l with
  | nil => intro g h; simp [extractKey] at h
  | cons c rest ih =>
    intro g h
    unfold extractKey at h
    by_cases ht : termAt (c :: rest) = true
    · rw [if_pos ht] at h
      have hg : g = [] := by
        have := Option.some.inj h
        rw [← this]
      subst hg
      refine ⟨⟨c :: rest, rfl, ht⟩, ?_⟩
      intro m hm
      simp at hm
    · rw [if_neg (by simp [ht])] at h
      by_cases hc : c = '\n'
      · rw [if_pos hc] at h
        exact absurd h (by simp)
      · rw [if_neg hc] at h
        obtain ⟨g', hg', hmap⟩ := Option.map_eq_some'.mp h
        obtain ⟨⟨t, hlt, htt⟩, hmin⟩ := ih g' hg'
        constructor
        · refine ⟨t, ?_, htt⟩
          rw [← hmap, hlt]
          rfl
        · intro m hm
          cases m with
          | zero =>
            rw [List.drop_zero]
            exact Bool.eq_false_iff.mpr ht
          | succ n =>
            rw [List.drop_succ_cons]
            apply hmin
            rw [← hmap] at hm
            simpa using Nat.lt_of_succ_lt_succ hm

theorem extractKey_none_spec : ∀ (l : List Char), '\n' ∉ l → extractKey l = none →
    ∀ n, termAt (l.drop n) = false := by
  intro l
  induction l with
  | nil =>
    intro _ _ n
    rw [List.drop_nil]
    rfl
  | cons c rest ih =>
    intro hnl h n
    unfold extractKey at h
    by_cases ht : termAt (c :: rest) = true
    · rw [if_pos ht] at h
      exact absurd h (by simp)
    · rw [if_neg (by simp [ht])] at h
      have hc : c ≠ '\n' := fun he => hnl (he ▸ List.mem_cons_self c rest)
      rw [if_neg hc] at h
      have hrest : extractKey rest = none := Option.map_eq_none'.mp h
      cases n with
      | zero =>
        rw [List.drop_zero]
        exact Bool.eq_false_iff.mpr ht
      | succ n =>
        rw [List.drop_succ_cons]
        exact ih (fun hm => hnl (List.mem_cons_of_mem c hm)) hrest n

theorem termAt_comma (t : List Char) (h : termAt t = true) :
    ∃ k, commaWS (t.drop k) = true := by
  unfold termAt at h
  by_cases hcw : commaWS t = true
  · exact ⟨0, by rwa [List.drop_zero]⟩
  · rw [Bool.eq_false_iff.mpr hcw, Bool.or_false] at h
    cases t with
    | nil => simp [suffixTerm] at h
    | cons c rest =>
      have hs : (isWS c && wordComma (rest.dropWhile isWS)) = true := h
      have hwcm : wordComma (rest.dropWhile isWS) = true := by
        rcases Bool.and_eq_true_iff.mp hs with ⟨_, h2⟩
        exact h2
      unfold wordComma at hwcm
      cases hm : matchAdmin (rest.dropWhile isWS) with
      | none =>
        rw [hm] at hwcm
        exact absurd hwcm (by simp)
      | some r' =>
        rw [hm] at hwcm
        obtain ⟨u, _, hdecomp⟩ := matchAdminAux_decomp adminWords _ r' hm
        have hrest : rest = rest.takeWhile isWS ++ (u ++ r') := by
          rw [← hdecomp]
          exact (List.takeWhile_append_dropWhile isWS rest).symm
        have hct : c :: rest = (c :: (rest.takeWhile isWS ++ u)) ++ r' := by
          conv_lhs => rw [hrest]
          simp [List.append_assoc]
        refine ⟨(c :: (rest.takeWhile isWS ++ u)).length, ?_⟩
        rw [hct, List.drop_left]
        exact hwcm

/-! ## Lemmas about the left merge -/

theorem leftMerge_cons {α β K : Type} [DecidableEq K] (kl : α → K) (kr : β → K)
    (a : α) (L : List α) (R : List β) :
    leftMerge kl kr (a :: L) R = mergeRow kl kr R a ++ leftMerge kl kr L R := by
  unfold leftMerge
  rw [List.map_cons, List.flatten_cons]

theorem mergeRow_ne_nil {α β K : Type} [DecidableEq K] (kl : α → K) (kr : β → K)
    (R : List β) (a : α) : mergeRow kl kr R a ≠ [] := by
  unfold mergeRow
  cases h : R.filter (fun b => decide (kr b = kl a)) with
  | nil => simp
  | cons b bs => simp

theorem mem_fst_mergeRow {α β K : Type} [DecidableEq K] (kl : α → K) (kr : β → K)
    (R : List β) (a : α) (p : α × Option β) (hp : p ∈ mergeRow kl kr R a) : p.1 = a := by
  unfold mergeRow at hp
  rcases hfil : R.filter (fun b => decide (kr b = kl a)) with _ | ⟨b, bs⟩
  · rw [hfil] at hp
    simp at hp
    rw [hp]
  · rw [hfil] at hp
    obtain ⟨x, _, hxe⟩ := List.mem_map.mp hp
    rw [← hxe]

theorem mem_leftMerge {α β K : Type} [DecidableEq K] (kl : α → K) (kr : β → K)
    (L : List α) (R : List β) (p : α × Option β) :
    p ∈ leftMerge kl kr L R ↔ ∃ a ∈ L, p ∈ mergeRow kl kr R a := by
  unfold leftMerge
  rw [List.mem_flatten]
  constructor
  · rintro ⟨l, hl, hpl⟩
    obtain ⟨a, ha, rfl⟩ := List.mem_map.mp hl
    exact ⟨a, ha, hpl⟩
  · rintro ⟨a, ha, hpa⟩
    exact ⟨mergeRow kl kr R a, List.mem_map_of_mem _ ha, hpa⟩

theorem leftMerge_complete {α β K : Type} [DecidableEq K] (kl : α → K) (kr : β → K)
    (L : List α) (R : List β) (a : α) (ha : a ∈ L) :
    ∃ ob, (a, ob) ∈ leftMerge kl kr L R := by
  obtain ⟨p, hp⟩ := List.exists_mem_of_ne_nil _ (mergeRow_ne_nil kl kr R a)
  have hfst := mem_fst_mergeRow kl kr R a p hp
  refine ⟨p.2, (mem_leftMerge kl kr L R (a, p.2)).mpr ⟨a, ha, ?_⟩⟩
  rw [show (a, p.2) = p from by rw [← hfst]]
  exact hp

theorem leftMerge_some_mem {α β K : Type} [DecidableEq K] (kl : α → K) (kr : β → K)
    (L : List α) (R : List β) (a : α) (b : β)
    (h : (a, some b) ∈ leftMerge kl kr L R) : b ∈ R ∧ kr b = kl a := by
  obtain ⟨a', _, hp⟩ := (mem_leftMerge kl kr L R (a, some b)).mp h
  unfold mergeRow at hp
  rcases hfil : R.filter (fun x => decide (kr x = kl a')) with _ | ⟨c, cs⟩
  · rw [hfil] at hp
    simp at hp
  · rw [hfil] at hp
    obtain ⟨x, hx, hxe⟩ := List.mem_map.mp hp
    have hxR : x ∈ R.filter (fun x => decide (kr x = kl a')) := by
      rw [hfil]
      exact hx
    have hmf := List.mem_filter.mp hxR
    have ha : a' = a := congrArg Prod.fst hxe
    have hb : x = b := by simpa using congrArg Prod.snd hxe
    refine ⟨hb ▸ hmf.1, ?_⟩
    have hk : kr x = kl a' := of_decide_eq_true hmf.2
    rw [← hb, ← ha]
    exact hk

theorem leftMerge_none_of_no_match {α β K : Type} [DecidableEq K] (kl : α → K) (kr : β → K)
    (L : List α) (R : List β) (a : α) (ob : Option β)
    (h : (a, ob) ∈ leftMerge kl kr L R) (hno : ∀ b ∈ R, kr b ≠ kl a) : ob = none := by
  cases ob with
  | none => rfl
  | some b =>
    obtain ⟨hbR, hk⟩ := leftMerge_some_mem kl kr L R a b h
    exact absurd hk (hno b hbR)

theorem leftMerge_none_mem {α β K : Type} [DecidableEq K] (kl : α → K) (kr : β → K)
    (L : List α) (R : List β) (a : α) (ha : a ∈ L) (hno : ∀ b ∈ R, kr b ≠ kl a) :
    (a, (none : Option β)) ∈ leftMerge kl kr L R := by
  apply (mem_leftMerge kl kr L R (a, none)).mpr
  refine ⟨a, ha, ?_⟩
  unfold mergeRow
  have hfil : R.filter (fun b => decide (kr b = kl a)) = [] := by
    apply List.filter_eq_nil_iff.mpr
    intro b hb
    simp [hno b hb]
  rw [hfil]
  simp

theorem countP_mergeRow {α β K : Type} [DecidableEq K] (kl : α → K) (kr : β → K)
    (R : List β) (hR : ∀ k, (R.filter (fun b => decide (kr b = k))).length ≤ 1)
    (a : α) (q : α → Bool) :
    (mergeRow kl kr R a).countP (fun p => q p.1) = if q a then 1 else 0 := by
  unfold mergeRow
  rcases hfil : R.filter (fun b => decide (kr b = kl a)) with _ | ⟨b, bs⟩
  · simp [List.countP_cons]
  · have hlen := hR (kl a)
    rw [hfil] at hlen
    have hbs : bs = [] := by
      have hlen2 : bs.length + 1 ≤ 1 := by simpa using hlen
      exact List.eq_nil_of_length_eq_zero (by omega)
    subst hbs
    simp [List.countP_cons]

theorem countP_leftMerge {α β K : Type} [DecidableEq K] (kl : α → K) (kr : β → K)
    (L : List α) (R : List β)
    (hR : ∀ k, (R.filter (fun b => decide (kr b = k))).length ≤ 1) (q : α → Bool) :
    (leftMerge kl kr L R).countP (fun p => q p.1) = L.countP q := by
  induction L with
  | nil => rfl
  | cons a L ih =>
    rw [leftMerge_cons, List.countP_append, countP_mergeRow kl kr R hR a q, ih,
      List.countP_cons]
    exact Nat.add_comm _ _

theorem drop_lowerStr (n : Nat) (l : List Char) :
    (lowerStr l).drop n = lowerStr (l.drop n) := by
  unfold lowerStr
  exact (List.map_drop lowerChar l n).symm

theorem normalizeACSName_eq_of_extract (s : String) (g : List Char)
    (h : extractKey s.data = some g) : normalizeACSName s = ⟨lowerStr g⟩ := by
  unfold normalizeACSName
  rw [h]

theorem normalizeACSName_eq_of_none (s : String)
    (h : extractKey s.data = none) : normalizeACSName s = ⟨lowerStr s.data⟩ := by
  unfold normalizeACSName
  rw [h]

/-! ## Claim C1 -/

/-- Claim C1 (amended): in the join pipeline (boundaries left-joined with
statistics, then with annotations) no region is ever dropped — every boundary
row yields at least one unified record, even when statistics or annotations
are entirely absent — and when the statistics and annotation tables each
contain at most one row per join key (in particular when they are empty),
the unified set contains exactly one record per occurrence of a region in
the boundary table.  As stated the claim fails: a duplicated key in the
statistics table duplicates the region (see the counterexample). -/
theorem joined_left_join_region_counts {G A P K₁ K₂ : Type}
    [DecidableEq K₁] [DecidableEq K₂] [DecidableEq G]
    (k1g : G → K₁) (ka : A → K₁) (k2g : G → K₂) (kp : P → K₂)
    (gdf : List G) (acs : List A) (pol : List P) :
    (∀ g ∈ gdf, ∃ row ∈ joinedPipeline k1g ka k2g kp gdf acs pol, row.1.1 = g) ∧
    ((∀ k, (acs.filter (fun b => decide (ka b = k))).length ≤ 1) →
     (∀ k, (pol.filter (fun b => decide (kp b = k))).length ≤ 1) →
     ∀ g, (joinedPipeline k1g ka k2g kp gdf acs pol).countP
        (fun row => decide (row.1.1 = g)) = gdf.countP (fun x => decide (x = g))) := by
  constructor
  · intro g hg
    obtain ⟨oa, hoa⟩ := leftMerge_complete k1g ka gdf acs g hg
    obtain ⟨op, hop⟩ := leftMerge_complete (fun q => k2g q.1) kp
      (leftMerge k1g ka gdf acs) pol (g, oa) hoa
    exact ⟨((g, oa), op), hop, rfl⟩
  · intro hA hP g
    unfold joinedPipeline
    rw [countP_leftMerge (fun q => k2g q.1) kp (leftMerge k1g ka gdf acs) pol hP
      (fun row => decide (row.1 = g))]
    exact countP_leftMerge k1g ka gdf acs hA (fun x => decide (x = g))

/-- Witness for C1: a single region with empty statistics and annotation
tables yields exactly one unified record for it. -/
theorem joined_left_join_region_counts_witness :
    (joinedPipeline (fun s : String => s) (fun s : String => s) (fun s : String => s)
      (fun s : String => s) ["burlington"] [] []).countP
        (fun row => decide (row.1.1 = "burlington")) =
      ["burlington"].countP (fun x => decide (x = "burlington")) :=
  (joined_left_join_region_counts (fun s : String => s) (fun s : String => s)
      (fun s : String => s) (fun s : String => s) ["burlington"] [] []).2
    (fun k => by simp) (fun k => by simp) "burlington"

/-- Counterexample to C1 as stated: a statistics table with two rows keyed
"a" makes the single region "a" appear twice in the unified set, so a region
can appear more than once. -/
theorem joined_duplicate_key_duplicates_region :
    (joinedPipeline (fun s : String => s) (fun p : String × Nat => p.1)
      (fun s : String => s) (fun s : String => s)
      ["a"] [("a", 1), ("a", 2)] []).countP (fun row => decide (row.1.1 = "a")) = 2 := by
  decide

/-! ## Claim C2 -/

/-- Claim C2 (amended): the sub-fetch merge `prof.merge(detl[...], on="GEOID",
how="left")` is left from the profile sub-fetch: a profile record whose
composite code is missing from the detailed sub-fetch still appears in the
merged statistics table, with null for the detailed indicator.  As stated the
claim fails for the other sub-fetch: a record missing from the profile
sub-fetch does not appear at all (see the counterexample). -/
theorem acs_merge_left_from_profile (prof : List ProfRow) (detl : List DetlRow)
    (p : ProfRow) (hp : p ∈ prof) (hd : ∀ d ∈ detl, d.GEOID ≠ p.GEOID) :
    (p, (none : Option DetlRow)) ∈ acsMerge prof detl ∧
    ∀ row ∈ acsMerge prof detl, row.1 = p → mergedIncome row = none := by
  constructor
  · exact leftMerge_none_mem _ _ prof detl p hp hd
  · intro row hrow h1
    have hsnd : row.2 = none := by
      have hmem : (row.1, row.2) ∈ acsMerge prof detl := by simpa using hrow
      apply leftMerge_none_of_no_match _ _ prof detl row.1 row.2 hmem
      intro b hb
      rw [h1]
      exact hd b hb
    unfold mergedIncome
    rw [hsnd]

/-- Witness for C2: a profile row whose code has no detailed match appears
with a null detailed part. -/
theorem acs_merge_left_from_profile_witness :
    ((⟨"5000700100", "Burlington", some 3, none, none⟩ : ProfRow),
      (none : Option DetlRow)) ∈
      acsMerge [⟨"5000700100", "Burlington", some 3, none, none⟩]
        [⟨"5099999999", some 50000⟩] :=
  (acs_merge_left_from_profile
    [⟨"5000700100", "Burlington", some 3, none, none⟩] [⟨"5099999999", some 50000⟩]
    ⟨"5000700100", "Burlington", some 3, none, none⟩ (by decide) (by decide)).1

/-- Counterexample to C2 as stated: a record present only in the detailed
sub-fetch is dropped — the merged table is empty, so the record does not
"still appear with nulls". -/
theorem acs_merge_drops_detail_only_record :
    acsMerge [] [⟨"5000700100", some 50000⟩] = [] := rfl

/-! ## Claim C3 -/

/-- Claim C3: for every raw display name of the form
`place ++ " " ++ word ++ ", " ++ parent` with `word` an administrative-type
word and `place` a comma-free, newline-free place name with no surrounding
whitespace, the ACS key normalizer returns the trimmed lowercased leading
place name with the suffix and parent-region portion stripped; and in the
end-to-end scenario the unified output pairs Burlington with its populated
indicator record and Montpelier with nulls. -/
theorem name_key_strips_geo_suffix (p w r : String)
    (hw : w ∈ adminWordStrings)
    (hp : ∀ a ∈ p.data, a ≠ ',' ∧ a ≠ '\n')
    (hh : isWS (p.data.headD 'a') = false)
    (hl : isWS (p.data.getLastD 'a') = false) :
    normalizeACSName (p ++ " " ++ w ++ ", " ++ r) = townClean p ∧
    scenarioJoined = [("burlington", some scenarioAcsRow), ("montpelier", none)] := by
  constructor
  · have hh' : ∀ b, p.data.head? = some b → isWS b = false := by
      intro b hb
      rwa [List.headD_eq_head?, hb] at hh
    have hl' : ∀ b, p.data.getLast? = some b → isWS b = false := by
      intro b hb
      rwa [List.getLastD_eq_getLast?, hb] at hl
    have hwc : w.data ∈ adminWords := by
      have h5 : w = "town" ∨ w = "city" ∨ w = "gore" ∨ w = "grant" ∨ w = "plantation" := by
        simpa [adminWordStrings] using hw
      rcases h5 with rfl | rfl | rfl | rfl | rfl <;> decide
    have hsp : (" " : String).data = [' '] := rfl
    have hcm : (", " : String).data = [',', ' '] := rfl
    have hdata : (p ++ " " ++ w ++ ", " ++ r).data =
        p.data ++ ' ' :: (w.data ++ ',' :: ' ' :: r.data) := by
      simp only [String.data_append, hsp, hcm]
      simp [List.append_assoc]
    have hext : extractKey (p ++ " " ++ w ++ ", " ++ r).data = some p.data := by
      rw [hdata]
      exact extractKey_place w.data r.data hwc p.data hp hl'
    rw [normalizeACSName_eq_of_extract _ p.data hext]
    unfold townClean
    rw [stripChars_eq_self p.data hh' hl']
  · decide

/-- Witness for C3: Burlington's Census display name normalizes to the
trimmed lowercase place name. -/
theorem name_key_strips_geo_suffix_witness :
    normalizeACSName ("Burlington" ++ " " ++ "city" ++ ", " ++ "Chittenden County, Vermont") =
      townClean "Burlington" ∧
    scenarioJoined = [("burlington", some scenarioAcsRow), ("montpelier", none)] :=
  name_key_strips_geo_suffix "Burlington" "city" "Chittenden County, Vermont"
    (by decide) (by decide) (by decide) (by decide)

/-! ## Claim C4 -/

/-- Claim C4: numeric coercion maps an empty-string cell and the service's
null sentinel (the JSON `null` the statistics service sends for unreported
values) to null, a value distinct from zero — never to zero. -/
theorem numeric_coercion_null_never_zero (v : CellValue)
    (hv : v = CellValue.str "" ∨ v = CellValue.null) :
    castNumericCell v = none ∧ castNumericCell v ≠ some 0 := by
  have h1 : castNumericCell v = none := by rcases hv with rfl | rfl <;> rfl
  refine ⟨h1, ?_⟩
  rw [h1]
  simp

/-- Witness for C4 at the empty-string cell. -/
theorem numeric_coercion_null_never_zero_witness :
    castNumericCell (CellValue.str "") = none ∧
    castNumericCell (CellValue.str "") ≠ some 0 :=
  numeric_coercion_null_never_zero (CellValue.str "") (Or.inl rfl)

/-! ## Claim C5 -/

/-- Claim C5: composite-code construction concatenates the state, county and
subdivision identifiers in that order (a pure, deterministic function of its
inputs), and for state "50", county "007", subdivision "00100" the composite
code is exactly "5000700100". -/
theorem geoid_concatenation_order_stable :
    (∀ c s, makeGEOID (some c) s = "50" ++ c ++ s) ∧
    makeGEOID (some "007") "00100" = "5000700100" := by
  constructor
  · intro c s
    rfl
  · decide

/-! ## Claim C6 -/

/-- Claim C6: a non-success (4xx/5xx) HTTP response makes both the
statistics adapter and the boundary adapter surface the fetch error to the
caller; neither returns a silent empty or partial `ok` result. -/
theorem non_success_status_is_fatal (rc : CensusResponse) (rg : GeoResponse)
    (h1 : 400 ≤ rc.status) (h2 : rc.status < 600)
    (h3 : 400 ≤ rg.status) (h4 : rg.status < 600) :
    _census_get rc = Except.error (FetchError.httpStatus rc.status) ∧
    fetch_vcgi_town_boundaries rg = Except.error (FetchError.httpStatus rg.status) := by
  constructor
  · unfold _census_get
    rw [if_pos ⟨h1, h2⟩]
  · unfold fetch_vcgi_town_boundaries
    rw [if_pos ⟨h3, h4⟩]

/-- Witness for C6 at statuses 404 and 500. -/
theorem non_success_status_is_fatal_witness :
    _census_get ⟨404, []⟩ = Except.error (FetchError.httpStatus 404) ∧
    fetch_vcgi_town_boundaries ⟨500, []⟩ = Except.error (FetchError.httpStatus 500) :=
  non_success_status_is_fatal ⟨404, []⟩ ⟨500, []⟩
    (by decide) (by decide) (by decide) (by decide)

/-! ## Claim C7 -/

/-- Claim C7: when the annotation path does not resolve, the loader returns
exactly the fixed built-in fallback set (with derived join keys) instead of
failing; and in the subsequent left join every carried annotation comes from
that fallback set with a matching name key, while a region whose key matches
no fallback name has null annotation fields. -/
theorem policy_links_fallback_and_join
    (readCsv : String → Option (List PolicyLinkRaw)) (path : String)
    (h : readCsv path = none) :
    load_policy_links readCsv path = fallbackPolicyLinks.map addTownClean ∧
    ∀ {α : Type} (kl : α → String) (L : List α) (a : α) (ob : Option PolicyLink),
      (a, ob) ∈ leftMerge kl PolicyLink.town_clean L (load_policy_links readCsv path) →
      (∀ b, ob = some b → b ∈ fallbackPolicyLinks.map addTownClean ∧ b.town_clean = kl a) ∧
      ((∀ b ∈ fallbackPolicyLinks.map addTownClean, b.town_clean ≠ kl a) → ob = none) := by
  have h1 : load_policy_links readCsv path = fallbackPolicyLinks.map addTownClean := by
    unfold load_policy_links
    rw [h]
  refine ⟨h1, ?_⟩
  intro α kl L a ob hmem
  rw [h1] at hmem
  constructor
  · intro b hb
    subst hb
    exact leftMerge_some_mem kl PolicyLink.town_clean L _ a b hmem
  · intro hno
    exact leftMerge_none_of_no_match kl PolicyLink.town_clean L _ a ob hmem hno

/-- Witness for C7: an unresolvable path yields exactly the fallback set. -/
theorem policy_links_fallback_and_join_witness :
    load_policy_links (fun _ => none) "policy_links.csv" =
      fallbackPolicyLinks.map addTownClean :=
  (policy_links_fallback_and_join (fun _ => none) "policy_links.csv" rfl).1

/-! ## Claim C8 -/

/-- Claim C8 (amended): the boundary-side strip-lowercase normalizer is
idempotent on every input, and the ACS-side regex normalizer is idempotent
on every input that contains no newline character.  As stated (for every
input string) the claim fails on a newline input, see the counterexample:
the regex group cannot cross a newline on the first pass, but after
lowercasing the whole name the suffix can match on the second pass. -/
theorem normalize_idempotent_no_newline (x : String) :
    townClean (townClean x) = townClean x ∧
    ('\n' ∉ x.data → normalizeACSName (normalizeACSName x) = normalizeACSName x) := by
  refine ⟨townClean_idem x, ?_⟩
  intro hnl
  cases hx : extractKey x.data with
  | none =>
    rw [normalizeACSName_eq_of_none x hx]
    have hspec := extractKey_none_spec x.data hnl hx
    have hnone2 : extractKey (lowerStr x.data) = none := by
      apply extractKey_none_of
      intro n
      by_cases ht : termAt ((lowerStr x.data).drop n) = true
      · exfalso
        obtain ⟨k, hk⟩ := termAt_comma _ ht
        rw [List.drop_drop, drop_lowerStr] at hk
        have hcx : commaWS (x.data.drop (n + k)) = true := commaWS_of_lowerStr _ hk
        have := termAt_of_commaWS _ hcx
        rw [hspec (n + k)] at this
        exact absurd this (by simp)
      · exact Bool.eq_false_iff.mpr ht
    rw [normalizeACSName_eq_of_none ⟨lowerStr x.data⟩ hnone2]
    show (⟨lowerStr (lowerStr x.data)⟩ : String) = ⟨lowerStr x.data⟩
    rw [lowerStr_idem]
  | some g =>
    rw [normalizeACSName_eq_of_extract x g hx]
    obtain ⟨⟨t, hlt, htt⟩, hmin⟩ := extractKey_some_spec x.data g hx
    have hnone2 : extractKey (lowerStr g) = none := by
      apply extractKey_none_of
      intro n
      by_cases ht : termAt ((lowerStr g).drop n) = true
      · exfalso
        obtain ⟨k, hk⟩ := termAt_comma _ ht
        rw [List.drop_drop, drop_lowerStr] at hk
        have hg : commaWS (g.drop (n + k)) = true := commaWS_of_lowerStr _ hk
        obtain ⟨b, rest, he, _⟩ := commaWS_elim _ hg
        have hlen : (g.drop (n + k)).length = g.length - (n + k) := List.length_drop _ _
        have hlt2 : n + k < g.length := by
          rw [he] at hlen
          simp at hlen
          omega
        have hxdrop : x.data.drop (n + k) = g.drop (n + k) ++ t := by
          rw [hlt]
          exact List.drop_append_of_le_length (by omega)
        have hterm : termAt (x.data.drop (n + k)) = true := by
          apply termAt_of_commaWS
          rw [hxdrop]
          exact commaWS_append _ t hg
        rw [hmin (n + k) hlt2] at hterm
        exact absurd hterm (by simp)
      · exact Bool.eq_false_iff.mpr ht
    rw [normalizeACSName_eq_of_none ⟨lowerStr g⟩ hnone2]
    show (⟨lowerStr (lowerStr g)⟩ : String) = ⟨lowerStr g⟩
    rw [lowerStr_idem]

/-- Witness for C8 on a newline-free input. -/
theorem normalize_idempotent_no_newline_witness :
    townClean (townClean "Burlington city, Chittenden County, Vermont") =
      townClean "Burlington city, Chittenden County, Vermont" ∧
    normalizeACSName (normalizeACSName "Burlington city, Chittenden County, Vermont") =
      normalizeACSName "Burlington city, Chittenden County, Vermont" :=
  ⟨(normalize_idempotent_no_newline "Burlington city, Chittenden County, Vermont").1,
   (normalize_idempotent_no_newline "Burlington city, Chittenden County, Vermont").2
     (by decide)⟩

/-- Counterexample to C8 as stated: on the input "\nTown, b" the first pass
cannot match (the lazy group does not cross the newline and "Town" is not
lowercase), so normalization lowercases the whole name; the second pass then
strips everything before the comma, so normalizing twice differs from
normalizing once. -/
theorem normalize_not_idempotent_on_newline :
    normalizeACSName (normalizeACSName "\nTown, b") ≠ normalizeACSName "\nTown, b" := by
  decide

/-! ## Claim C9 -/

/-- Claim C9 (spec-modelled cache): starting with no entry for the key, the
first get-or-fetch issues the network call and stores the result; a second
call with the same key inside the one-hour validity window returns the
identical cached result without a network call; a call at or after expiry
issues a new network call. -/
theorem cache_ttl_window_behaviour {K V : Type} [DecidableEq K]
    (c₀ : CacheState K V) (f : K → V) (k : K) (t t₁ t₂ : Nat)
    (h0 : ∀ e ∈ c₀.entries, e.1 ≠ k)
    (hin : t₁ < t + cacheTTLSeconds) (hout : t + cacheTTLSeconds ≤ t₂) :
    (getOrFetch c₀ f k t).2.2 = true ∧
    getOrFetch (getOrFetch c₀ f k t).2.1 f k t₁ =
      ((getOrFetch c₀ f k t).1, (getOrFetch c₀ f k t).2.1, false) ∧
    (getOrFetch (getOrFetch c₀ f k t).2.1 f k t₂).2.2 = true := by
  have hl0 : lookupFresh c₀ k t = none := by
    unfold lookupFresh
    have hf : c₀.entries.find?
        (fun e => decide (e.1 = k) && decide (t < e.2.2 + cacheTTLSeconds)) = none := by
      apply List.find?_eq_none.mpr
      intro e he
      simp [h0 e he]
    rw [hf]
    rfl
  have hstep : getOrFetch c₀ f k t = (f k, ⟨(k, f k, t) :: c₀.entries⟩, true) := by
    unfold getOrFetch
    rw [hl0]
  rw [hstep]
  refine ⟨rfl, ?_, ?_⟩
  · have hl1 : lookupFresh ⟨(k, f k, t) :: c₀.entries⟩ k t₁ = some (f k) := by
      unfold lookupFresh
      rw [List.find?_cons_of_pos _ (by simp [hin])]
      rfl
    unfold getOrFetch
    rw [hl1]
  · have hl2 : lookupFresh ⟨(k, f k, t) :: c₀.entries⟩ k t₂ = none := by
      unfold lookupFresh
      have hf : ((k, f k, t) :: c₀.entries).find?
          (fun e => decide (e.1 = k) && decide (t₂ < e.2.2 + cacheTTLSeconds)) = none := by
        apply List.find?_eq_none.mpr
        intro e he
        rcases List.mem_cons.mp he with rfl | he'
        · simp
          omega
        · simp [h0 e he']
      rw [hf]
      rfl
    unfold getOrFetch
    rw [hl2]

/-- Witness for C9: a cold cache, a hit at 3599 seconds, a refetch at 3600. -/
theorem cache_ttl_window_behaviour_witness :
    (getOrFetch (⟨[]⟩ : CacheState Nat Nat) (fun _ => 7) 0 0).2.2 = true ∧
    getOrFetch (getOrFetch (⟨[]⟩ : CacheState Nat Nat) (fun _ => 7) 0 0).2.1
        (fun _ => 7) 0 3599 =
      ((getOrFetch (⟨[]⟩ : CacheState Nat Nat) (fun _ => 7) 0 0).1,
       (getOrFetch (⟨[]⟩ : CacheState Nat Nat) (fun _ => 7) 0 0).2.1, false) ∧
    (getOrFetch (getOrFetch (⟨[]⟩ : CacheState Nat Nat) (fun _ => 7) 0 0).2.1
        (fun _ => 7) 0 3600).2.2 = true :=
  cache_ttl_window_behaviour ⟨[]⟩ (fun _ => 7) 0 0 3599 3600
    (by simp) (by decide) (by decide)

/-! ## Claim C10 -/

/-- Claim C10: the low-level statistics fetch presupposes a non-empty
array-of-arrays — it indexes the first element unconditionally, so a
successful response decoding to an empty array raises an exception (the
modelled `IndexError`) instead of returning a table. -/
theorem census_get_empty_rows_error (r : CensusResponse)
    (h1 : r.status < 400) (h2 : r.rows = []) :
    _census_get r = Except.error FetchError.emptyBody := by
  unfold _census_get
  rw [if_neg (by omega), h2]

/-- Witness for C10: an OK response with an empty decoded array. -/
theorem census_get_empty_rows_error_witness :
    _census_get ⟨200, []⟩ = Except.error FetchError.emptyBody :=
  census_get_empty_rows_error ⟨200, []⟩ (by decide) rfl
